import Mathlib

/-!
Verification of the string-commitment codec of `unicity_bridge`.

The repository ships two near-duplicate CLI front-ends
(`string-to-address-cli.js`) over a commitment library
(`alpha-address-commitment.js`).  The library file itself is not among the
sources, so the codec below — digest primitives, payload builders,
Base58Check, `commit` and `verify` for both variants — is modelled from the
specification's byte-level description (§4.1–§4.4 of the spec); the CLI
handlers and the file-reading pipeline are embedded from the CLI source.
-/

namespace UnicityBridge

/-- The 58-character base-58 alphabet used by the codec (spec §4.3). -/
def b58Alphabet : List Char :=
  "123456789ABCDEFGHJKLMNPQRSTUVWXYZabcdefghijkmnopqrstuvwxyz".toList

/-- Index of a character in a character list, counting from `i`. -/
def charIndexAux (c : Char) : List Char → Nat → Option Nat
  | [], _ => none
  | a :: rest, i => if a = c then some i else charIndexAux c rest (i + 1)

/-- Position of a character in the base-58 alphabet, `none` when absent. -/
def b58Index (c : Char) : Option Nat := charIndexAux c b58Alphabet 0

/-- Character of a base-58 digit. -/
def b58Char (d : Nat) : Char := b58Alphabet.getD d '1'

/-- Big-endian value of a digit list in a given base. -/
def ofDigits (base : Nat) (l : List Nat) : Nat :=
  l.foldl (fun a x => a * base + x) 0

/-- Big-endian digits of `n` in a given base, empty for `0`; the first
argument is recursion fuel, sufficient whenever `n < base ^ fuel`. -/
def toDigitsF (base : Nat) : Nat → Nat → List Nat
  | 0, _ => []
  | fuel + 1, n =>
    if n = 0 then [] else toDigitsF base fuel (n / base) ++ [n % base]

/-- Count of leading zero bytes of a byte list. -/
def leadingZeros (l : List Nat) : Nat := (l.takeWhile (fun x => x == 0)).length

/-- Base-58 encoding (spec §4.3): the bytes are read as one big-endian
integer, and every leading zero byte maps to exactly one leading '1'. -/
def base58Encode (l : List Nat) : String :=
  String.mk (List.replicate (leadingZeros l) '1' ++
    (toDigitsF 58 (2 * l.length) (ofDigits 256 l)).map b58Char)

/-- Accumulating base-58 value of a character list; `none` as soon as a
character outside the alphabet is met. -/
def b58ValueAux (a : Nat) : List Char → Option Nat
  | [] => some a
  | c :: cs =>
    match b58Index c with
    | none => none
    | some d => b58ValueAux (a * 58 + d) cs

/-- Count of leading '1' characters. -/
def leadingOnes (cs : List Char) : Nat := (cs.takeWhile (fun c => c == '1')).length

/-- Base-58 decoding (spec §4.3): fails on any character outside the
alphabet and reconstructs one leading zero byte per leading '1'. -/
def base58Decode (s : String) : Option (List Nat) :=
  match b58ValueAux 0 s.toList with
  | none => none
  | some n =>
    some (List.replicate (leadingOnes s.toList) 0 ++ toDigitsF 256 s.toList.length n)

/-- Modelled from the spec: the digest primitives of §4.1 live in
`alpha-address-commitment.js`, which is not among the sources; they are
required to be externally supplied standard hash functions, so they are
abstracted here as any pair of functions meeting the spec's output-length
and byte-range contracts (`hash256` a 32-byte digest, `hashRipemd` a
20-byte digest). -/
structure HashPrims where
  hash256 : List Nat → List Nat
  hashRipemd : List Nat → List Nat
  hash256_length : ∀ b, (hash256 b).length = 32
  hashRipemd_length : ∀ b, (hashRipemd b).length = 20
  hash256_bytes : ∀ b x, x ∈ hash256 b → x < 256
  hashRipemd_bytes : ∀ b x, x ∈ hashRipemd b → x < 256

/-- Double hash (spec §4.1): `hash256` applied twice, sequentially. -/
def hash256x2 (H : HashPrims) (b : List Nat) : List Nat :=
  H.hash256 (H.hash256 b)

/-- Checksum (spec §4.3 step 2): first 4 bytes of the double hash of the
versioned payload. -/
def checksum4 (H : HashPrims) (v : List Nat) : List Nat :=
  (hash256x2 H v).take 4

/-- Base58Check encoding (spec §4.3): version byte, content bytes,
4-byte checksum, base-58 encoded. -/
def b58CheckEncode (H : HashPrims) (version : Nat) (content : List Nat) : String :=
  base58Encode ((version :: content) ++ checksum4 H (version :: content))

/-- Modelled from the spec: variant A `commit` (spec §4.2, §4.4) — version
byte `0x00` over the first 20 bytes of `hash256(input)`. -/
def commitA (H : HashPrims) (b : List Nat) : String :=
  b58CheckEncode H 0 ((H.hash256 b).take 20)

/-- Modelled from the spec: variant A `verify` (spec §4.4, §9) — decode the
identifier, folding every failure into `false`; compare bytes 1–21 of the
decoded envelope with `hash256(claimed)[0:20]`; the checksum bytes are
never recomputed nor checked. -/
def verifyA (H : HashPrims) (s : String) (b : List Nat) : Bool :=
  match base58Decode s with
  | none => false
  | some full =>
    if full.length < 25 then false
    else decide ((full.drop 1).take 20 = (H.hash256 b).take 20)

/-- Byte values of the fixed ASCII tag `"UNSPENDABLE:"` (spec §4.2). -/
def unspendTag : List Nat := "UNSPENDABLE:".toList.map Char.toNat

/-- Error taxonomy of the codec that `commit` can surface (spec §7). -/
inductive CommitError where
  | payloadTooLarge

/-- Modelled from the spec: the variant B script (spec §4.2) — marker byte
`0x6a`, one length byte, then the tag concatenated with the full digest. -/
def scriptB (H : HashPrims) (b : List Nat) : List Nat :=
  let embedded := unspendTag ++ H.hash256 b
  0x6a :: embedded.length :: embedded

/-- Content bytes of the variant B versioned payload (spec §4.2):
`hashRipemd (hash256 script)`. -/
def contentB (H : HashPrims) (b : List Nat) : List Nat :=
  H.hashRipemd (H.hash256 (scriptB H b))

/-- Modelled from the spec: variant B `commit` (spec §4.2, §4.4, §7) —
fails with `PayloadTooLarge` when the embedded data exceeds the one-byte
length limit, else encodes the script digest under version byte `0x05`. -/
def commitB (H : HashPrims) (b : List Nat) : Except CommitError String :=
  let embedded := unspendTag ++ H.hash256 b
  if 255 < embedded.length then Except.error CommitError.payloadTooLarge
  else Except.ok (b58CheckEncode H 5 (H.hashRipemd (H.hash256 (0x6a :: embedded.length :: embedded))))

/-- Modelled from the spec: variant B `verify` (spec §4.4) — recompute
`commit` from scratch and compare identifier strings; any internal failure
is mapped to `false`. -/
def verifyB (H : HashPrims) (s : String) (b : List Nat) : Bool :=
  match commitB H b with
  | Except.ok ident => decide (ident = s)
  | Except.error _ => false

/-- Outcome of a CLI handler: a returned value, or a process exit with the
given code (`string-to-address-cli.js`). -/
inductive CliOutcome (α : Type) where
  | ok : α → CliOutcome α
  | exited : Nat → CliOutcome α

/-- The `generate` handler (`string-to-address-cli.js` lines 39–65): the
library call is wrapped in try/catch, and any thrown error is mapped to
`process.exit(1)`. -/
def generateAddress {α : Type} (lib : String → Except String α)
    (inputString : String) : CliOutcome α :=
  match lib inputString with
  | Except.ok r => CliOutcome.ok r
  | Except.error _ => CliOutcome.exited 1

/-- The `generate-file` handler (lines 68–84): exits with code 1 when the
file is missing or unreadable, else hands the decoded file text to
`generateAddress`. -/
def generateAddressFromFile {α : Type} (fileExists : Bool)
    (readFile : Except String String) (lib : String → Except String α) :
    CliOutcome α :=
  if fileExists then
    match readFile with
    | Except.ok content => generateAddress lib content
    | Except.error _ => CliOutcome.exited 1
  else CliOutcome.exited 1

/-- The `verify` handler (lines 87–110): both the verification call and the
address regeneration performed on success sit inside one try/catch whose
catch branch exits with code 1. -/
def verifyAddress {α : Type} (verifyCall : Except String Bool)
    (genCall : Except String α) : CliOutcome Bool :=
  match verifyCall with
  | Except.error _ => CliOutcome.exited 1
  | Except.ok isValid =>
    if isValid then
      match genCall with
      | Except.error _ => CliOutcome.exited 1
      | Except.ok _ => CliOutcome.ok isValid
    else CliOutcome.ok isValid

/-- The `verify-file` handler (lines 113–129): exits with code 1 when the
file is missing or unreadable, else hands the decoded file text to
`verifyAddress`. -/
def verifyAddressWithFile {α : Type} (fileExists : Bool)
    (readFile : Except String String)
    (verifyCall : String → Except String Bool)
    (genCall : String → Except String α) : CliOutcome Bool :=
  if fileExists then
    match readFile with
    | Except.ok content => verifyAddress (verifyCall content) (genCall content)
    | Except.error _ => CliOutcome.exited 1
  else CliOutcome.exited 1

/-- The `proof` handler (lines 132–162): one try/catch around the library
call, mapping any thrown error to `process.exit(1)`. -/
def showUnspendabilityProof {α : Type} (proofCall : Except String α) :
    CliOutcome α :=
  match proofCall with
  | Except.ok r => CliOutcome.ok r
  | Except.error _ => CliOutcome.exited 1

/-- State of the incremental UTF-8 decoder: continuation bytes still
needed, code point accumulated so far, and the admissible range of the
next continuation byte. -/
structure Utf8State where
  needed : Nat
  cp : Nat
  lower : Nat
  upper : Nat

/-- Initial decoder state. -/
def utf8Fresh : Utf8State := ⟨0, 0, 0x80, 0xBF⟩

/-- Modelled from the spec: `fs.readFileSync(path, 'utf8')` in the CLI
decodes the raw file bytes as UTF-8 text; Node follows the WHATWG decoder,
emitting U+FFFD for every malformed sequence.  Transition on a byte read
in the initial state. -/
def utf8Start (b : Nat) : Utf8State × List Nat :=
  if b ≤ 0x7F then (utf8Fresh, [b])
  else if b ≤ 0xC1 then (utf8Fresh, [0xFFFD])
  else if b ≤ 0xDF then (⟨1, b - 0xC0, 0x80, 0xBF⟩, [])
  else if b ≤ 0xEF then
    (⟨2, b - 0xE0, if b = 0xE0 then 0xA0 else 0x80,
      if b = 0xED then 0x9F else 0xBF⟩, [])
  else if b ≤ 0xF4 then
    (⟨3, b - 0xF0, if b = 0xF0 then 0x90 else 0x80,
      if b = 0xF4 then 0x8F else 0xBF⟩, [])
  else (utf8Fresh, [0xFFFD])

/-- Decoder transition on one byte: continuation bytes are accumulated,
and an out-of-range byte emits U+FFFD and is reprocessed as a fresh
start byte. -/
def utf8Step (st : Utf8State) (b : Nat) : Utf8State × List Nat :=
  if st.needed = 0 then utf8Start b
  else if st.lower ≤ b ∧ b ≤ st.upper then
    (if st.needed = 1 then (utf8Fresh, [st.cp * 64 + (b - 0x80)])
     else ⟨⟨st.needed - 1, st.cp * 64 + (b - 0x80), 0x80, 0xBF⟩, []⟩)
  else
    (let p := utf8Start b
     (p.1, 0xFFFD :: p.2))

/-- Run the decoder over a byte list; a truncated trailing sequence emits
one final U+FFFD. -/
def utf8DecodeAux : Utf8State → List Nat → List Nat
  | st, [] => if st.needed = 0 then [] else [0xFFFD]
  | st, b :: rest =>
    let p := utf8Step st b
    p.2 ++ utf8DecodeAux p.1 rest

/-- UTF-8 decoding with replacement: byte list to code-point list. -/
def utf8Decode (l : List Nat) : List Nat := utf8DecodeAux utf8Fresh l

/-- UTF-8 encoding of one code point. -/
def utf8EncodeChar (c : Nat) : List Nat :=
  if c ≤ 0x7F then [c]
  else if c ≤ 0x7FF then [0xC0 + c / 64, 0x80 + c % 64]
  else if c ≤ 0xFFFF then [0xE0 + c / 4096, 0x80 + c / 64 % 64, 0x80 + c % 64]
  else [0xF0 + c / 262144, 0x80 + c / 4096 % 64, 0x80 + c / 64 % 64, 0x80 + c % 64]

/-- UTF-8 encoding of a code-point list. -/
def utf8Encode (l : List Nat) : List Nat :=
  (l.map utf8EncodeChar).flatten

/-- Byte sequence actually committed by the file-based commands: the raw
file bytes pass through UTF-8 decode (with replacement) and re-encode
before reaching the codec. -/
def fileCommitBytes (fileBytes : List Nat) : List Nat :=
  utf8Encode (utf8Decode fileBytes)

/-- The commitment computed by `generate-file` on a file with the given
raw bytes (CLI lines 68–84 composed with the codec). -/
def commitFromFile (H : HashPrims) (fileBytes : List Nat) :
    Except CommitError String :=
  commitB H (fileCommitBytes fileBytes)

/-- Rolling mix of a byte list, used by the concrete witness digests. -/
def toyMix (b : List Nat) : Nat := b.foldl (fun a x => a * 33 + x + 1) 7

/-- A concrete stand-in digest of output width `w`, used only to witness
the theorems at evaluable inputs. -/
def toyHash (w : Nat) (b : List Nat) : List Nat :=
  (List.range w).map (fun i => toyMix b % (257 + i) % 256)

/-- Concrete hash primitives built from `toyHash`, for witnesses. -/
def toyPrims : HashPrims :=
  ⟨toyHash 32, toyHash 20,
   fun b => by simp [toyHash],
   fun b => by simp [toyHash],
   fun b x hx => by
     simp only [toyHash, List.mem_map] at hx
     obtain ⟨i, -, rfl⟩ := hx
     exact Nat.mod_lt _ (by decide),
   fun b x hx => by
     simp only [toyHash, List.mem_map] at hx
     obtain ⟨i, -, rfl⟩ := hx
     exact Nat.mod_lt _ (by decide)⟩

/-- Byte values of an ASCII string (its UTF-8 bytes). -/
def strBytes (s : String) : List Nat := s.toList.map Char.toNat

theorem foldl_digits (base : Nat) (l : List Nat) :
    ∀ a : Nat, l.foldl (fun acc x => acc * base + x) a = a * base ^ l.length + ofDigits base l := by
  induction l with
  | nil => intro a; simp [ofDigits]
  | cons x xs ih =>
    intro a
    have hx : ofDigits base (x :: xs) = x * base ^ xs.length + ofDigits base xs := by
      show xs.foldl (fun acc y => acc * base + y) (0 * base + x) = _
      rw [show 0 * base + x = x by ring, ih x]
    simp only [List.foldl_cons, List.length_cons]
    rw [ih (a * base + x), hx]
    ring

theorem ofDigits_cons (base x : Nat) (xs : List Nat) :
    ofDigits base (x :: xs) = x * base ^ xs.length + ofDigits base xs := by
  show xs.foldl (fun acc y => acc * base + y) (0 * base + x) = _
  rw [show 0 * base + x = x by ring, foldl_digits]

theorem ofDigits_append (base : Nat) (xs ys : List Nat) :
    ofDigits base (xs ++ ys) = ofDigits base xs * base ^ ys.length + ofDigits base ys := by
  show (xs ++ ys).foldl (fun acc y => acc * base + y) 0 = _
  rw [List.foldl_append]
  exact foldl_digits base ys _

theorem ofDigits_replicate (base k : Nat) (r : List Nat) :
    ofDigits base (List.replicate k 0 ++ r) = ofDigits base r := by
  induction k with
  | zero => simp
  | succ k ih =>
    rw [List.replicate_succ, List.cons_append]
    calc ofDigits base (0 :: (List.replicate k 0 ++ r))
        = (List.replicate k 0 ++ r).foldl (fun acc x => acc * base + x) (0 * base + 0) := rfl
      _ = ofDigits base (List.replicate k 0 ++ r) := by
          rw [show (0 : Nat) * base + 0 = 0 by ring]; rfl
      _ = ofDigits base r := ih

theorem ofDigits_lt (base : Nat) (_hb : 0 < base) (l : List Nat)
    (h : ∀ x ∈ l, x < base) : ofDigits base l < base ^ l.length := by
  induction l with
  | nil => simp [ofDigits]
  | cons x xs ih =>
    rw [ofDigits_cons, List.length_cons, pow_succ]
    have hx : x < base := h x (by simp)
    have hxs : ofDigits base xs < base ^ xs.length := ih (fun y hy => h y (by simp [hy]))
    calc x * base ^ xs.length + ofDigits base xs
        < x * base ^ xs.length + base ^ xs.length := by omega
      _ = (x + 1) * base ^ xs.length := by ring
      _ ≤ base * base ^ xs.length := Nat.mul_le_mul_right _ hx
      _ = base ^ xs.length * base := by ring

theorem ofDigits_ge (base x : Nat) (xs : List Nat) (hx : x ≠ 0) :
    base ^ xs.length ≤ ofDigits base (x :: xs) := by
  rw [ofDigits_cons]
  calc base ^ xs.length = 1 * base ^ xs.length := (one_mul _).symm
    _ ≤ x * base ^ xs.length := Nat.mul_le_mul_right _ (Nat.one_le_iff_ne_zero.mpr hx)
    _ ≤ x * base ^ xs.length + ofDigits base xs := Nat.le_add_right _ _

theorem toDigitsF_zero (base fuel : Nat) : toDigitsF base fuel 0 = [] := by
  cases fuel <;> simp [toDigitsF]

theorem toDigitsF_sound (base : Nat) (hb : 0 < base) :
    ∀ fuel n, n < base ^ fuel → ofDigits base (toDigitsF base fuel n) = n := by
  intro fuel
  induction fuel with
  | zero =>
    intro n h
    rw [pow_zero] at h
    rw [show n = 0 by omega]
    rfl
  | succ fuel ih =>
    intro n h
    by_cases hn : n = 0
    · subst hn; rw [toDigitsF_zero]; rfl
    · rw [show toDigitsF base (fuel + 1) n = toDigitsF base fuel (n / base) ++ [n % base] from
        by simp [toDigitsF, hn]]
      have hdiv : n / base < base ^ fuel := by
        rw [Nat.div_lt_iff_lt_mul hb, ← pow_succ]
        exact h
      rw [ofDigits_append, ih (n / base) hdiv]
      have h1 : ofDigits base [n % base] = n % base := by
        show 0 * base + n % base = n % base
        ring
      have h2 : ([n % base] : List Nat).length = 1 := rfl
      rw [h1, h2, pow_one, Nat.mul_comm]
      exact Nat.div_add_mod n base

theorem toDigitsF_mem_lt (base : Nat) (hb : 0 < base) :
    ∀ fuel n x, x ∈ toDigitsF base fuel n → x < base := by
  intro fuel
  induction fuel with
  | zero => intro n x hx; simp [toDigitsF] at hx
  | succ fuel ih =>
    intro n x hx
    by_cases hn : n = 0
    · subst hn; simp [toDigitsF] at hx
    · simp only [toDigitsF, if_neg hn, List.mem_append, List.mem_singleton] at hx
      rcases hx with hx | rfl
      · exact ih _ _ hx
      · exact Nat.mod_lt _ hb

theorem toDigitsF_lt_pow (base : Nat) (hb : 1 < base) :
    ∀ fuel n, n < base ^ fuel → n < base ^ (toDigitsF base fuel n).length := by
  intro fuel
  induction fuel with
  | zero => intro n h; simpa [toDigitsF] using h
  | succ fuel ih =>
    intro n h
    by_cases hn : n = 0
    · subst hn; rw [toDigitsF_zero]; simp
    · have hb0 : 0 < base := by omega
      have hdiv : n / base < base ^ fuel := by
        rw [Nat.div_lt_iff_lt_mul hb0, ← pow_succ]
        exact h
      have ihd := ih (n / base) hdiv
      simp only [toDigitsF, if_neg hn, List.length_append, List.length_cons, List.length_nil]
      have h2 : n < base * (n / base + 1) := by
        have h3 := Nat.div_add_mod n base
        have hm : n % base < base := Nat.mod_lt _ hb0
        calc n = base * (n / base) + n % base := h3.symm
          _ < base * (n / base) + base := by omega
          _ = base * (n / base + 1) := by ring
      calc n < base * (n / base + 1) := h2
        _ ≤ base * base ^ (toDigitsF base fuel (n / base)).length :=
            Nat.mul_le_mul_left _ (by omega)
        _ = base ^ ((toDigitsF base fuel (n / base)).length + (0 + 1)) := by
            rw [pow_succ]; ring_nf

theorem toDigitsF_head (base : Nat) (hb : 1 < base) :
    ∀ fuel n, n < base ^ fuel → (toDigitsF base fuel n).head? ≠ some 0 := by
  intro fuel
  induction fuel with
  | zero => intro n h; simp [toDigitsF]
  | succ fuel ih =>
    intro n h
    by_cases hn : n = 0
    · subst hn; rw [toDigitsF_zero]; simp
    · have hb0 : 0 < base := by omega
      have hdiv : n / base < base ^ fuel := by
        rw [Nat.div_lt_iff_lt_mul hb0, ← pow_succ]
        exact h
      simp only [toDigitsF, if_neg hn]
      cases hrec : toDigitsF base fuel (n / base) with
      | nil =>
        have h0 : n / base = 0 := by
          have hs := toDigitsF_sound base hb0 fuel (n / base) hdiv
          rw [hrec] at hs
          simpa [ofDigits] using hs.symm
        have hnb : n < base := by
          rcases Nat.lt_or_ge n base with hlt | hge
          · exact hlt
          · exact absurd h0 (by
              have : 0 < n / base := Nat.div_pos hge hb0
              omega)
        rw [List.nil_append]
        rw [Nat.mod_eq_of_lt hnb]
        simpa using hn
      | cons c cs =>
        have hh := ih (n / base) hdiv
        rw [hrec] at hh
        simpa using hh

theorem toDigitsF_canonical (base : Nat) (hb : 2 ≤ base) (l : List Nat) :
    ∀ fuel, (∀ x ∈ l, x < base) → l.head? ≠ some 0 → l.length ≤ fuel →
      toDigitsF base fuel (ofDigits base l) = l := by
  induction l using List.reverseRecOn with
  | nil =>
    intro fuel _ _ _
    rw [show ofDigits base [] = 0 from rfl, toDigitsF_zero]
  | append_singleton ys d ih =>
    intro fuel hlt hh hlen
    have hb0 : 0 < base := by omega
    have hd : d < base := hlt d (by simp)
    have hys : ∀ x ∈ ys, x < base := fun x hx => hlt x (by simp [hx])
    have hval : ofDigits base (ys ++ [d]) = ofDigits base ys * base + d := by
      rw [ofDigits_append]
      rw [show ofDigits base [d] = d from by show 0 * base + d = d; ring]
      rw [show ([d] : List Nat).length = 1 from rfl, pow_one]
    have hne : ofDigits base (ys ++ [d]) ≠ 0 := by
      cases ys with
      | nil =>
        have hd0 : d ≠ 0 := by simpa using hh
        rw [hval]
        simpa [ofDigits] using hd0
      | cons y ys' =>
        have hy : y ≠ 0 := by simpa using hh
        have hge := ofDigits_ge base y (ys' ++ [d]) hy
        have hp : 0 < base ^ (ys' ++ [d]).length := Nat.pos_pow_of_pos _ hb0
        rw [show ((y :: ys') ++ [d] : List Nat) = y :: (ys' ++ [d]) from rfl]
        omega
    obtain ⟨f, rfl⟩ : ∃ f, fuel = f + 1 := by
      cases fuel with
      | zero => simp at hlen
      | succ f => exact ⟨f, rfl⟩
    simp only [toDigitsF, if_neg hne]
    have hdivval : ofDigits base (ys ++ [d]) / base = ofDigits base ys := by
      rw [hval, Nat.mul_comm, Nat.mul_add_div hb0, Nat.div_eq_of_lt hd, Nat.add_zero]
    have hmodval : ofDigits base (ys ++ [d]) % base = d := by
      rw [hval, Nat.mul_comm (ofDigits base ys) base, Nat.mul_add_mod, Nat.mod_eq_of_lt hd]
    rw [hdivval, hmodval]
    have hysrec : toDigitsF base f (ofDigits base ys) = ys := by
      apply ih f hys
      · cases ys with
        | nil => simp
        | cons y ys' => simpa using hh
      · have : (ys ++ [d]).length = ys.length + 1 := by simp
        omega
    rw [hysrec]

theorem charIndexAux_lt (c : Char) :
    ∀ (l : List Char) (i j : Nat), charIndexAux c l i = some j → j < i + l.length := by
  intro l
  induction l with
  | nil => intro i j h; simp [charIndexAux] at h
  | cons a rest ih =>
    intro i j h
    by_cases ha : a = c
    · simp only [charIndexAux, if_pos ha, Option.some.injEq] at h
      simp [← h]
    · simp only [charIndexAux, if_neg ha] at h
      have := ih (i + 1) j h
      simp only [List.length_cons]
      omega

theorem b58Index_lt (c : Char) (d : Nat) (h : b58Index c = some d) : d < 58 := by
  have h1 := charIndexAux_lt c b58Alphabet 0 d h
  have h2 : b58Alphabet.length = 58 := rfl
  omega

theorem b58Index_b58Char : ∀ d : Fin 58, b58Index (b58Char d.val) = some d.val := by decide

theorem b58Char_ne_one : ∀ d : Fin 58, d.val ≠ 0 → b58Char d.val ≠ '1' := by decide

theorem b58ValueAux_ones : ∀ (k : Nat) (cs : List Char),
    b58ValueAux 0 (List.replicate k '1' ++ cs) = b58ValueAux 0 cs := by
  intro k
  induction k with
  | zero => intro cs; simp
  | succ k ih =>
    intro cs
    rw [List.replicate_succ, List.cons_append]
    have h1 : b58Index '1' = some 0 := rfl
    show (match b58Index '1' with
      | none => none
      | some d => b58ValueAux (0 * 58 + d) (List.replicate k '1' ++ cs)) = b58ValueAux 0 cs
    rw [h1]
    show b58ValueAux (0 * 58 + 0) (List.replicate k '1' ++ cs) = b58ValueAux 0 cs
    rw [show 0 * 58 + 0 = 0 by ring]
    exact ih cs

theorem b58ValueAux_digits (ds : List Nat) :
    ∀ a, (∀ x ∈ ds, x < 58) →
      b58ValueAux a (ds.map b58Char) = some (a * 58 ^ ds.length + ofDigits 58 ds) := by
  induction ds with
  | nil => intro a _; simp [b58ValueAux, ofDigits]
  | cons d ds ih =>
    intro a h
    have hd : d < 58 := h d (by simp)
    have h1 : b58Index (b58Char d) = some d := b58Index_b58Char ⟨d, hd⟩
    rw [List.map_cons]
    show (match b58Index (b58Char d) with
      | none => none
      | some e => b58ValueAux (a * 58 + e) (ds.map b58Char)) = _
    rw [h1]
    show b58ValueAux (a * 58 + d) (ds.map b58Char) = _
    rw [ih (a * 58 + d) (fun x hx => h x (by simp [hx]))]
    congr 1
    rw [ofDigits_cons, List.length_cons, pow_succ]
    ring

theorem takeWhile_replicate_append (p : α → Bool) (a : α) (ha : p a = true) :
    ∀ (k : Nat) (rest : List α), (∀ x, rest.head? = some x → p x = false) →
      ((List.replicate k a ++ rest).takeWhile p).length = k := by
  intro k
  induction k with
  | zero =>
    intro rest hrest
    cases rest with
    | nil => simp
    | cons c cs =>
      have hc : p c = false := hrest c rfl
      simp [List.takeWhile_cons, hc]
  | succ k ih =>
    intro rest hrest
    rw [List.replicate_succ, List.cons_append, List.takeWhile_cons, if_pos ha]
    rw [List.length_cons, ih rest hrest]

theorem leadingZeros_split (l : List Nat) :
    List.replicate (leadingZeros l) 0 ++ l.dropWhile (fun x => x == 0) = l := by
  have h1 : l.takeWhile (fun x => x == 0) = List.replicate (leadingZeros l) 0 := by
    have h2 : ∀ b ∈ l.takeWhile (fun x => x == 0), b = 0 := by
      intro b hb
      have := List.mem_takeWhile_imp hb
      simpa using this
    exact List.eq_replicate_of_mem h2
  rw [← h1, List.takeWhile_append_dropWhile]

theorem dropWhile_head_not (p : α → Bool) :
    ∀ (l : List α) (x : α), (l.dropWhile p).head? = some x → p x = false := by
  intro l
  induction l with
  | nil => intro x h; simp [List.dropWhile] at h
  | cons a rest ih =>
    intro x h
    by_cases hp : p a
    · rw [List.dropWhile_cons, if_pos hp] at h
      exact ih x h
    · rw [List.dropWhile_cons, if_neg hp] at h
      simp only [List.head?_cons, Option.some.injEq] at h
      rw [← h]
      simpa using hp

theorem leadingZeros_cons_zero (rest : List Nat) :
    leadingZeros (0 :: rest) = leadingZeros rest + 1 := by
  simp [leadingZeros, List.takeWhile_cons]

theorem pow256_le_pow58 (m : Nat) : 256 ^ m ≤ 58 ^ (2 * m) := by
  calc 256 ^ m ≤ (58 ^ 2) ^ m := Nat.pow_le_pow_left (by omega) m
    _ = 58 ^ (2 * m) := by rw [← pow_mul]

theorem encode_value_lt (l : List Nat) (hb : ∀ x ∈ l, x < 256) :
    ofDigits 256 l < 58 ^ (2 * l.length) :=
  lt_of_lt_of_le (ofDigits_lt 256 (by omega) l hb) (pow256_le_pow58 l.length)

theorem encode_digits_head (l : List Nat) (hb : ∀ x ∈ l, x < 256) :
    ∀ y, ((toDigitsF 58 (2 * l.length) (ofDigits 256 l)).map b58Char).head? = some y →
      (y == '1') = false := by
  intro y hy
  have hnlt := encode_value_lt l hb
  cases hds : toDigitsF 58 (2 * l.length) (ofDigits 256 l) with
  | nil => rw [hds] at hy; simp at hy
  | cons c cs =>
    rw [hds] at hy
    simp only [List.map_cons, List.head?_cons, Option.some.injEq] at hy
    have hc0 : c ≠ 0 := by
      have hh := toDigitsF_head 58 (by omega) (2 * l.length) (ofDigits 256 l) hnlt
      rw [hds] at hh
      simpa using hh
    have hc58 : c < 58 :=
      toDigitsF_mem_lt 58 (by omega) (2 * l.length) (ofDigits 256 l) c (by rw [hds]; simp)
    have hne := b58Char_ne_one ⟨c, hc58⟩ hc0
    rw [← hy]
    simpa using hne

theorem base58Encode_toList (l : List Nat) :
    (base58Encode l).toList =
      List.replicate (leadingZeros l) '1' ++
        (toDigitsF 58 (2 * l.length) (ofDigits 256 l)).map b58Char := rfl

theorem base58Encode_leadingOnes (l : List Nat) (hb : ∀ x ∈ l, x < 256) :
    leadingOnes (base58Encode l).toList = leadingZeros l := by
  rw [base58Encode_toList]
  exact takeWhile_replicate_append (fun c => c == '1') '1' rfl (leadingZeros l) _
    (fun x hx => encode_digits_head l hb x hx)

theorem base58_roundtrip (l : List Nat) (hb : ∀ x ∈ l, x < 256) :
    base58Decode (base58Encode l) = some l := by
  have hsplit := leadingZeros_split l
  set k := leadingZeros l with hk
  set r := l.dropWhile (fun x => x == 0) with hr
  have hval : ofDigits 256 l = ofDigits 256 r := by
    have h1 := ofDigits_replicate 256 k r
    rw [hsplit] at h1
    exact h1
  have hrbytes : ∀ x ∈ r, x < 256 := by
    intro x hx
    apply hb
    rw [← hsplit]
    exact List.mem_append_right _ hx
  have hnlt := encode_value_lt l hb
  have hvalue : b58ValueAux 0 (base58Encode l).toList = some (ofDigits 256 l) := by
    rw [base58Encode_toList, b58ValueAux_ones]
    rw [b58ValueAux_digits _ 0 (fun x hx => toDigitsF_mem_lt 58 (by omega) _ _ _ hx)]
    rw [toDigitsF_sound 58 (by omega) _ _ hnlt]
    simp
  have hones : leadingOnes (base58Encode l).toList = k := base58Encode_leadingOnes l hb
  have hlen : (base58Encode l).toList.length =
      k + (toDigitsF 58 (2 * l.length) (ofDigits 256 l)).length := by
    rw [base58Encode_toList]
    simp
  have hrhead : r.head? ≠ some 0 := by
    intro hcontra
    have := dropWhile_head_not (fun x => x == 0) l 0 (by rw [← hr]; exact hcontra)
    simp at this
  have hrlen : r.length ≤ (base58Encode l).toList.length := by
    cases hrc : r with
    | nil => simp
    | cons x r' =>
      have hx0 : x ≠ 0 := by
        have := dropWhile_head_not (fun y => y == 0) l x (by rw [← hr, hrc]; rfl)
        simpa using this
      have hge : 256 ^ r'.length ≤ ofDigits 256 r := by
        rw [hrc]; exact ofDigits_ge 256 x r' hx0
      have hlt : ofDigits 256 l < 58 ^ (toDigitsF 58 (2 * l.length) (ofDigits 256 l)).length :=
        toDigitsF_lt_pow 58 (by omega) _ _ hnlt
      have hlt2 : ofDigits 256 l < 256 ^ (toDigitsF 58 (2 * l.length) (ofDigits 256 l)).length :=
        lt_of_lt_of_le hlt (Nat.pow_le_pow_left (by omega) _)
      have hpow : 256 ^ r'.length < 256 ^ (toDigitsF 58 (2 * l.length) (ofDigits 256 l)).length := by
        rw [← hval] at hge
        omega
      have hexp : r'.length < (toDigitsF 58 (2 * l.length) (ofDigits 256 l)).length := by
        by_contra hcon
        push_neg at hcon
        have := Nat.pow_le_pow_right (show 1 ≤ 256 by omega) hcon
        omega
      rw [hlen]
      simp only [List.length_cons]
      omega
  have hdig : toDigitsF 256 (base58Encode l).toList.length (ofDigits 256 l) = r := by
    rw [hval]
    exact toDigitsF_canonical 256 (by omega) r _ hrbytes hrhead hrlen
  show base58Decode (base58Encode l) = some l
  unfold base58Decode
  rw [hvalue]
  show some (List.replicate (leadingOnes (base58Encode l).toList) 0 ++
    toDigitsF 256 (base58Encode l).toList.length (ofDigits 256 l)) = some l
  rw [hones, hdig, hsplit]

theorem encode_head_cons_zero (rest : List Nat) :
    ((base58Encode (0 :: rest)).toList).head? = some '1' := by
  rw [base58Encode_toList, leadingZeros_cons_zero, List.replicate_succ]
  simp

theorem takeLenAppend {α : Type} (xs ys : List α) : (xs ++ ys).take xs.length = xs := by
  induction xs with
  | nil => simp
  | cons a rest ih => simp [ih]

theorem dropLenAppend {α : Type} (xs ys : List α) : (xs ++ ys).drop xs.length = ys := by
  induction xs with
  | nil => simp
  | cons a rest ih => simp [ih]

theorem take_hash256_bytes (H : HashPrims) (b : List Nat) :
    ∀ x ∈ (H.hash256 b).take 20, x < 256 :=
  fun x hx => H.hash256_bytes b x (List.take_subset _ _ hx)

theorem take_hash256_length (H : HashPrims) (b : List Nat) :
    ((H.hash256 b).take 20).length = 20 := by
  simp [List.length_take, H.hash256_length]

theorem checksum4_bytes (H : HashPrims) (v : List Nat) :
    ∀ x ∈ checksum4 H v, x < 256 :=
  fun x hx => H.hash256_bytes (H.hash256 v) x (List.take_subset _ _ hx)

theorem checksum4_length (H : HashPrims) (v : List Nat) :
    (checksum4 H v).length = 4 := by
  simp [checksum4, hash256x2, List.length_take, H.hash256_length]

theorem contentB_bytes (H : HashPrims) (b : List Nat) :
    ∀ x ∈ contentB H b, x < 256 :=
  fun x hx => H.hashRipemd_bytes _ x hx

theorem contentB_length (H : HashPrims) (b : List Nat) :
    (contentB H b).length = 20 :=
  H.hashRipemd_length _

theorem decode_envelope (version : Nat) (content c : List Nat)
    (hv : version < 256) (hcb : ∀ x ∈ content, x < 256) (hcc : ∀ x ∈ c, x < 256) :
    base58Decode (base58Encode ((version :: content) ++ c)) =
      some ((version :: content) ++ c) := by
  apply base58_roundtrip
  intro x hx
  simp only [List.cons_append, List.mem_cons, List.mem_append] at hx
  rcases hx with rfl | hx | hx
  · exact hv
  · exact hcb x hx
  · exact hcc x hx

theorem decode_b58CheckEncode (H : HashPrims) (version : Nat) (content : List Nat)
    (hv : version < 256) (hcb : ∀ x ∈ content, x < 256) :
    base58Decode (b58CheckEncode H version content) =
      some ((version :: content) ++ checksum4 H (version :: content)) :=
  decode_envelope version content _ hv hcb (checksum4_bytes H _)

theorem envelope_length (version : Nat) (content c : List Nat)
    (hcontent : content.length = 20) (hc : c.length = 4) :
    ((version :: content) ++ c).length = 25 := by
  simp [hcontent, hc]

theorem envelope_extract (version : Nat) (content c : List Nat)
    (hcontent : content.length = 20) :
    (((version :: content) ++ c).drop 1).take 20 = content := by
  rw [List.cons_append]
  show (content ++ c).take 20 = content
  rw [← hcontent, takeLenAppend]

theorem verifyA_decode (H : HashPrims) (s : String) (b full : List Nat)
    (hdec : base58Decode s = some full) (hlen : full.length = 25) :
    verifyA H s b = decide ((full.drop 1).take 20 = (H.hash256 b).take 20) := by
  unfold verifyA
  rw [hdec]
  show (if full.length < 25 then false
    else decide ((full.drop 1).take 20 = (H.hash256 b).take 20)) = _
  rw [hlen]
  norm_num

theorem verifyA_true_of (H : HashPrims) (b c : List Nat)
    (hlen : c.length = 4) (hcb : ∀ x ∈ c, x < 256) :
    verifyA H (base58Encode ((0 :: (H.hash256 b).take 20) ++ c)) b = true := by
  have hdec := decode_envelope 0 ((H.hash256 b).take 20) c (by omega)
    (take_hash256_bytes H b) hcb
  rw [verifyA_decode H _ b _ hdec
    (envelope_length 0 _ c (take_hash256_length H b) hlen)]
  rw [envelope_extract 0 _ c (take_hash256_length H b)]
  simp

theorem commitA_eq (H : HashPrims) (b : List Nat) :
    commitA H b = base58Encode ((0 :: (H.hash256 b).take 20) ++
      checksum4 H (0 :: (H.hash256 b).take 20)) := rfl

theorem unspendTag_length : unspendTag.length = 12 := rfl

theorem embedded_length (H : HashPrims) (b : List Nat) :
    (unspendTag ++ H.hash256 b).length = 44 := by
  rw [List.length_append, unspendTag_length, H.hash256_length]

theorem scriptB_eq (H : HashPrims) (b : List Nat) :
    scriptB H b = 0x6a :: 44 :: (unspendTag ++ H.hash256 b) := by
  show 0x6a :: (unspendTag ++ H.hash256 b).length :: (unspendTag ++ H.hash256 b) = _
  rw [embedded_length]

theorem commitB_eq (H : HashPrims) (b : List Nat) :
    commitB H b = Except.ok (b58CheckEncode H 5 (contentB H b)) := by
  show (if 255 < (unspendTag ++ H.hash256 b).length then
      Except.error CommitError.payloadTooLarge
    else Except.ok (b58CheckEncode H 5 (H.hashRipemd (H.hash256
      (0x6a :: (unspendTag ++ H.hash256 b).length :: (unspendTag ++ H.hash256 b)))))) = _
  rw [embedded_length]
  norm_num
  unfold contentB
  rw [scriptB_eq]

theorem utf8DecodeAux_ascii :
    ∀ l : List Nat, (∀ x ∈ l, x < 128) → utf8DecodeAux utf8Fresh l = l := by
  intro l
  induction l with
  | nil => intro _; rfl
  | cons b rest ih =>
    intro h
    have hb : b ≤ 127 := by have := h b (by simp); omega
    have hstep : utf8Step utf8Fresh b = (utf8Fresh, [b]) := by
      have h0x : b ≤ 0x7F := hb
      simp [utf8Step, utf8Fresh, utf8Start, h0x]
    show (utf8Step utf8Fresh b).2 ++ utf8DecodeAux (utf8Step utf8Fresh b).1 rest = b :: rest
    rw [hstep]
    show b :: utf8DecodeAux utf8Fresh rest = b :: rest
    rw [ih (fun x hx => h x (by simp [hx]))]

theorem utf8Encode_ascii :
    ∀ l : List Nat, (∀ x ∈ l, x < 128) → utf8Encode l = l := by
  intro l
  induction l with
  | nil => intro _; rfl
  | cons b rest ih =>
    intro h
    have hb : b ≤ 0x7F := by have := h b (by simp); omega
    show utf8EncodeChar b ++ (rest.map utf8EncodeChar).flatten = b :: rest
    rw [show utf8EncodeChar b = [b] from by simp [utf8EncodeChar, hb]]
    have := ih (fun x hx => h x (by simp [hx]))
    show b :: (rest.map utf8EncodeChar).flatten = b :: rest
    rw [show (rest.map utf8EncodeChar).flatten = utf8Encode rest from rfl, this]

theorem fileCommitBytes_ascii (l : List Nat) (h : ∀ x ∈ l, x < 128) :
    fileCommitBytes l = l := by
  unfold fileCommitBytes utf8Decode
  rw [utf8DecodeAux_ascii l h, utf8Encode_ascii l h]

/-- C1: for every byte sequence `b` (including the empty sequence),
`verify (commit b) b` returns `true` in both codec variants; in particular
`commit ""` succeeds and the resulting identifier verifies against `""`. -/
theorem claim_C1 (H : HashPrims) (b : List Nat) :
    verifyA H (commitA H b) b = true ∧
    (∀ s, commitB H b = Except.ok s → verifyB H s b = true) ∧
    (∃ s, commitB H [] = Except.ok s) ∧
    verifyA H (commitA H []) [] = true := by
  refine ⟨?_, ?_, ⟨_, commitB_eq H []⟩, ?_⟩
  · rw [commitA_eq]
    exact verifyA_true_of H b _ (checksum4_length H _) (checksum4_bytes H _)
  · intro s hs
    unfold verifyB
    rw [hs]
    simp
  · rw [commitA_eq]
    exact verifyA_true_of H [] _ (checksum4_length H _) (checksum4_bytes H _)

/-- Witness for C1 at a concrete input. -/
theorem claim_C1_witness :
    verifyA toyPrims (commitA toyPrims [7]) [7] = true ∧
    verifyB toyPrims ((commitB toyPrims [7]).toOption.getD "") [7] = true :=
  ⟨(claim_C1 toyPrims [7]).1,
   (claim_C1 toyPrims [7]).2.1 ((commitB toyPrims [7]).toOption.getD "")
     (by rw [commitB_eq]; rfl)⟩

/-- C2: `verify` never surfaces an error: a non-decodable identifier, an
identifier whose decoding is shorter than 25 bytes, the empty identifier
and a non-base-58 identifier all yield the result `false` (the embedded
`verifyA` is a total function into `Bool`, so no exception can escape). -/
theorem claim_C2 (H : HashPrims) (s : String) (b : List Nat) :
    (base58Decode s = none → verifyA H s b = false) ∧
    (∀ full, base58Decode s = some full → full.length < 25 → verifyA H s b = false) ∧
    verifyA H "" b = false ∧
    verifyA H "not-base58-!!!" b = false := by
  refine ⟨?_, ?_, ?_, ?_⟩
  · intro h
    unfold verifyA
    rw [h]
  · intro full h hlen
    unfold verifyA
    rw [h]
    show (if full.length < 25 then false
      else decide ((full.drop 1).take 20 = (H.hash256 b).take 20)) = false
    rw [if_pos hlen]
  · have h : base58Decode "" = some [] := rfl
    unfold verifyA
    rw [h]
    show (if ([] : List Nat).length < 25 then false
      else decide ((([] : List Nat).drop 1).take 20 = (H.hash256 b).take 20)) = false
    rw [if_pos (by decide)]
  · have h : base58Decode "not-base58-!!!" = none := rfl
    unfold verifyA
    rw [h]

/-- Witness for C2 at concrete malformed identifiers. -/
theorem claim_C2_witness :
    verifyA toyPrims "not-base58-!!!" [] = false ∧
    verifyA toyPrims "2" [] = false :=
  ⟨(claim_C2 toyPrims "not-base58-!!!" []).2.2.2,
   (claim_C2 toyPrims "2" []).2.1 [1] rfl (by decide)⟩

/-- C3: variant A verification compares only the 20 extracted content
bytes and never checks the 4-byte checksum: an envelope carrying the
correct content bytes and ANY 4 checksum bytes still verifies as `true`,
and `commit` differs from such an envelope only in those checksum bytes. -/
theorem claim_C3 (H : HashPrims) (b c : List Nat)
    (hlen : c.length = 4) (hcb : ∀ x ∈ c, x < 256) :
    verifyA H (base58Encode ((0 :: (H.hash256 b).take 20) ++ c)) b = true ∧
    commitA H b = base58Encode ((0 :: (H.hash256 b).take 20) ++
      checksum4 H (0 :: (H.hash256 b).take 20)) :=
  ⟨verifyA_true_of H b c hlen hcb, commitA_eq H b⟩

/-- Witness for C3: a corrupted checksum `[9, 9, 9, 9]` still verifies. -/
theorem claim_C3_witness :
    verifyA toyPrims (base58Encode ((0 :: (toyPrims.hash256 [1]).take 20) ++
      [9, 9, 9, 9])) [1] = true :=
  (claim_C3 toyPrims [1] [9, 9, 9, 9] (by decide) (by decide)).1

/-- C4: the variant B script is the marker byte `0x6a`, one length byte
equal to 44, then the tag-plus-digest bytes; the embedded data is always
exactly 44 bytes, `commit` never fails with `PayloadTooLarge`, and the
versioned-payload content is `hashRipemd (hash256 script)`. -/
theorem claim_C4 (H : HashPrims) (b : List Nat) :
    scriptB H b = 0x6a :: 44 :: (unspendTag ++ H.hash256 b) ∧
    (unspendTag ++ H.hash256 b).length = 44 ∧
    commitB H b = Except.ok (b58CheckEncode H 5 (H.hashRipemd (H.hash256 (scriptB H b)))) ∧
    commitB H b ≠ Except.error CommitError.payloadTooLarge := by
  refine ⟨scriptB_eq H b, embedded_length H b, ?_, ?_⟩
  · rw [commitB_eq]; rfl
  · rw [commitB_eq]; simp

/-- C5: the identifier produced by `commit` decodes to exactly 25 bytes:
one version byte (0x00 for variant A, 0x05 for variant B), 20 content
bytes, then 4 checksum bytes equal to the first 4 bytes of `hash256x2`
applied to the first 21 bytes. -/
theorem claim_C5 (H : HashPrims) (b : List Nat) :
    (∃ full, base58Decode (commitA H b) = some full ∧ full.length = 25 ∧
      full.head? = some 0 ∧ full.take 21 = 0 :: (H.hash256 b).take 20 ∧
      full.drop 21 = (hash256x2 H (full.take 21)).take 4) ∧
    (∀ s, commitB H b = Except.ok s → ∃ full, base58Decode s = some full ∧
      full.length = 25 ∧ full.head? = some 5 ∧ full.take 21 = 5 :: contentB H b ∧
      full.drop 21 = (hash256x2 H (full.take 21)).take 4) := by
  constructor
  · have hA21 : ((0 : Nat) :: (H.hash256 b).take 20).length = 21 := by
      simp [take_hash256_length H b]
    refine ⟨(0 :: (H.hash256 b).take 20) ++ checksum4 H (0 :: (H.hash256 b).take 20),
      ?_, ?_, ?_, ?_, ?_⟩
    · rw [commitA_eq]
      exact decode_envelope 0 _ _ (by omega) (take_hash256_bytes H b) (checksum4_bytes H _)
    · exact envelope_length 0 _ _ (take_hash256_length H b) (checksum4_length H _)
    · simp
    · rw [← hA21, takeLenAppend]
    · rw [← hA21, dropLenAppend, takeLenAppend]
      rfl
  · intro s hs
    rw [commitB_eq] at hs
    injection hs with hs'
    have hB21 : ((5 : Nat) :: contentB H b).length = 21 := by
      simp [contentB_length H b]
    refine ⟨(5 :: contentB H b) ++ checksum4 H (5 :: contentB H b), ?_, ?_, ?_, ?_, ?_⟩
    · rw [← hs']
      exact decode_b58CheckEncode H 5 (contentB H b) (by omega) (contentB_bytes H b)
    · exact envelope_length 5 _ _ (contentB_length H b) (checksum4_length H _)
    · simp
    · rw [← hB21, takeLenAppend]
    · rw [← hB21, dropLenAppend, takeLenAppend]
      rfl

/-- Witness for C5 at a concrete input, variant B branch. -/
theorem claim_C5_witness :
    ∃ full, base58Decode ((commitB toyPrims [2]).toOption.getD "") = some full ∧
      full.length = 25 ∧ full.head? = some 5 ∧
      full.take 21 = 5 :: contentB toyPrims [2] ∧
      full.drop 21 = (hash256x2 toyPrims (full.take 21)).take 4 :=
  (claim_C5 toyPrims [2]).2 ((commitB toyPrims [2]).toOption.getD "")
    (by rw [commitB_eq]; rfl)

/-- C6: base-58 encoding maps every leading zero byte to exactly one
leading '1' character, decoding reconstructs the identical byte list for
every byte sequence, and every variant A identifier begins with '1'. -/
theorem claim_C6 :
    (∀ l : List Nat, (∀ x ∈ l, x < 256) →
      base58Decode (base58Encode l) = some l ∧
      leadingOnes (base58Encode l).toList = leadingZeros l) ∧
    (∀ (H : HashPrims) (b : List Nat), ((commitA H b).toList).head? = some '1') := by
  constructor
  · intro l hb
    exact ⟨base58_roundtrip l hb, base58Encode_leadingOnes l hb⟩
  · intro H b
    exact encode_head_cons_zero
      ((H.hash256 b).take 20 ++ checksum4 H (0 :: (H.hash256 b).take 20))

/-- Witness for C6: a payload starting with a zero byte round-trips. -/
theorem claim_C6_witness :
    base58Decode (base58Encode [0, 200]) = some [0, 200] ∧
    leadingOnes (base58Encode [0, 200]).toList = leadingZeros [0, 200] :=
  claim_C6.1 [0, 200] (by decide)

/-- C7: for byte sequences whose underlying (truncated or script) hashes
do not collide, verification of one's commitment against the other
returns `false` in both variants. -/
theorem claim_C7 (H : HashPrims) (b1 b2 : List Nat) (_hne : b1 ≠ b2)
    (hA : (H.hash256 b1).take 20 ≠ (H.hash256 b2).take 20)
    (hB : contentB H b1 ≠ contentB H b2) :
    verifyA H (commitA H b1) b2 = false ∧
    ∀ s, commitB H b1 = Except.ok s → verifyB H s b2 = false := by
  constructor
  · have hdec := decode_envelope 0 ((H.hash256 b1).take 20)
      (checksum4 H (0 :: (H.hash256 b1).take 20)) (by omega)
      (take_hash256_bytes H b1) (checksum4_bytes H _)
    rw [commitA_eq]
    rw [verifyA_decode H _ b2 _ hdec
      (envelope_length 0 _ _ (take_hash256_length H b1) (checksum4_length H _))]
    rw [envelope_extract 0 _ _ (take_hash256_length H b1)]
    exact decide_eq_false hA
  · intro s hs
    rw [commitB_eq] at hs
    injection hs with hs'
    unfold verifyB
    rw [commitB_eq H b2]
    show decide (b58CheckEncode H 5 (contentB H b2) = s) = false
    apply decide_eq_false
    intro heq
    apply hB
    have hstr : b58CheckEncode H 5 (contentB H b1) = b58CheckEncode H 5 (contentB H b2) := by
      rw [hs', heq]
    have hd1 := decode_b58CheckEncode H 5 (contentB H b1) (by omega) (contentB_bytes H b1)
    have hd2 := decode_b58CheckEncode H 5 (contentB H b2) (by omega) (contentB_bytes H b2)
    rw [hstr, hd2] at hd1
    injection hd1 with hfull
    have e1 := envelope_extract 5 (contentB H b1)
      (checksum4 H (5 :: contentB H b1)) (contentB_length H b1)
    have e2 := envelope_extract 5 (contentB H b2)
      (checksum4 H (5 :: contentB H b2)) (contentB_length H b2)
    rw [← e1, ← e2, hfull]

set_option maxRecDepth 8000 in
/-- Witness for C7: the concrete one-character-different secret strings. -/
theorem claim_C7_witness :
    verifyA toyPrims (commitA toyPrims (strBytes "My secret information"))
      (strBytes "My secret Information") = false :=
  (claim_C7 toyPrims (strBytes "My secret information")
    (strBytes "My secret Information") (by decide) (by decide) (by decide)).1

/-- C8: `commit` is a pure deterministic function of the input bytes alone
(the embedding is a pure function, so identical inputs give identical
identifier strings in both variants). -/
theorem claim_C8 (H : HashPrims) (b b' : List Nat) (h : b = b') :
    commitA H b = commitA H b' ∧ commitB H b = commitB H b' := by
  subst h
  exact ⟨rfl, rfl⟩

/-- Witness for C8 at a concrete repeated input. -/
theorem claim_C8_witness :
    commitA toyPrims [3] = commitA toyPrims [3] ∧
    commitB toyPrims [3] = commitB toyPrims [3] :=
  claim_C8 toyPrims [3] [3] rfl

/-- C9: every CLI command handler wraps its library calls in try/catch,
so any library exception yields exit code 1 and no exception propagates
(the handlers are total functions into `CliOutcome`, which has no
exception constructor). -/
theorem claim_C9 (α : Type) (e inp c : String) (g : Except String α)
    (gen : String → Except String α) (vf : String → Except String Bool) (r : α) :
    generateAddress (fun _ => (Except.error e : Except String α)) inp = CliOutcome.exited 1 ∧
    generateAddress (fun _ => Except.ok r) inp = CliOutcome.ok r ∧
    verifyAddress (Except.error e) g = CliOutcome.exited 1 ∧
    verifyAddress (Except.ok true) (Except.error e : Except String α) = CliOutcome.exited 1 ∧
    verifyAddress (Except.ok false) g = CliOutcome.ok false ∧
    showUnspendabilityProof (Except.error e : Except String α) = CliOutcome.exited 1 ∧
    generateAddressFromFile false (Except.ok c) gen = CliOutcome.exited 1 ∧
    generateAddressFromFile true (Except.error e) gen = CliOutcome.exited 1 ∧
    generateAddressFromFile true (Except.ok c)
      (fun _ => (Except.error e : Except String α)) = CliOutcome.exited 1 ∧
    verifyAddressWithFile false (Except.ok c) vf gen = CliOutcome.exited 1 ∧
    verifyAddressWithFile true (Except.error e) vf gen = CliOutcome.exited 1 ∧
    verifyAddressWithFile true (Except.ok c)
      (fun _ => Except.error e) gen = CliOutcome.exited 1 :=
  ⟨rfl, rfl, rfl, rfl, rfl, rfl, rfl, rfl, rfl, rfl, rfl, rfl⟩

/-- C10: the file-based commands commit the UTF-8 re-encoding of the
file's UTF-8-decoded text: ASCII files are committed byte-for-byte, but a
file whose bytes are not valid UTF-8 (such as the single byte 0xFF) is
not. -/
theorem claim_C10 (H : HashPrims) (fileBytes : List Nat) :
    commitFromFile H fileBytes = commitB H (utf8Encode (utf8Decode fileBytes)) ∧
    (∀ l : List Nat, (∀ x ∈ l, x < 128) → fileCommitBytes l = l) ∧
    fileCommitBytes [255] ≠ [255] :=
  ⟨rfl, fun l h => fileCommitBytes_ascii l h, by decide⟩

/-- Witness for C10 at a concrete ASCII file content. -/
theorem claim_C10_witness : fileCommitBytes [104, 105] = [104, 105] :=
  (claim_C10 toyPrims []).2.1 [104, 105] (by decide)

end UnicityBridge
